import Mathlib

/-!
Verification of the pattern-analysis and validation engine of the
audience-newsletter repository (src/validate_methods.py, src/audit_pools.py,
src/generate_newsletter.py), shallowly embedded in Lean.

Modelling conventions:
* Python ints are Nat/Int (arbitrary precision, no overflow).
* Python floats (train ratios, accuracies, pass rates) are modelled as Rat;
  a ratio such as 0.8 is the exact rational 4/5.
* collections.Counter is modelled as an association list in key-insertion
  order; Counter.most_common(n) is a stable sort by count descending
  followed by take n, matching CPython (heapq.nlargest with a key is
  equivalent to a stable descending sort then slicing).
* python sorted(...) on numbers is List.insertionSort (· ≤ ·).
-/

/-- One historical drawing: calendar date (as an ordinal), main numbers,
optional bonus number.  Mirrors the draw records consumed by
validate_methods.py and audit_pools.py. -/
structure Draw where
  date : Int
  main : List Nat
  bonus : Option Nat := none
deriving DecidableEq

/-- Python sorted(...) on the main numbers (ascending, stable). -/
def sortAsc (l : List Nat) : List Nat := List.insertionSort (· ≤ ·) l

/-- A collections.Counter over keys of type a: association list of
(key, count) pairs kept in key-insertion order, as CPython dicts do. -/
abbrev Counter (a : Type) := List (a × Nat)

/-- counter[key] += 1: bump the count in place if the key is present,
otherwise append the key at the end with count 1 (dict insertion order). -/
def incr {a : Type} [DecidableEq a] : Counter a → a → Counter a
  | [], v => [(v, 1)]
  | (k, n) :: rest, v =>
      if k = v then (k, n + 1) :: rest else (k, n) :: incr rest v

/-- Tally a stream of values into a counter (a sequence of += 1 updates). -/
def tallyList {a : Type} [DecidableEq a] (c : Counter a) (vs : List a) : Counter a :=
  vs.foldl incr c

/-- Insert one entry into a count-descending list, after all entries with a
strictly greater count and before all entries with a smaller-or-equal count
(the placement that makes the overall sort stable). -/
def insertDesc {a : Type} (x : a × Nat) : Counter a → Counter a
  | [] => [x]
  | y :: l => if y.2 ≤ x.2 then x :: y :: l else y :: insertDesc x l

/-- Stable sort of a counter by count descending (entries with equal counts
keep their original relative order). -/
def sortDesc {a : Type} (c : Counter a) : Counter a :=
  c.foldr insertDesc []

/-- Counter.most_common(n): the n entries with the largest counts, by count
descending, ties kept in counter (insertion) order. -/
def mostCommon {a : Type} (c : Counter a) (n : Nat) : Counter a :=
  (sortDesc c).take n

/-!
Position-frequency pool building, embedded from the loop shared by
audit_pools.analyze_lottery, validate_methods.validate_position_frequency
and generate_newsletter.generate_position_pools:

    position_counters = [Counter() for _ in range(5)]
    for draw in draws:
        main_nums = sorted(draw.get('main', []))
        for i, num in enumerate(main_nums):
            if i < 5:
                position_counters[i][num] += 1
-/

/-- position_counters[i][num] += 1 for one (i, num) pair. -/
def setStep (cs : List (Counter Nat)) (p : Nat × Nat) : List (Counter Nat) :=
  cs.set p.1 (incr (cs.getD p.1 []) p.2)

/-- Process one draw: enumerate its ascending-sorted main numbers and tally
each rank below 5 into the matching position counter. -/
def updateCounters (cs : List (Counter Nat)) (d : Draw) : List (Counter Nat) :=
  ((sortAsc d.main).enum).foldl
    (fun cs p => if p.1 < 5 then setStep cs p else cs) cs

/-- The five per-position counters built from a draw list. -/
def buildPositionCounters (draws : List Draw) : List (Counter Nat) :=
  draws.foldl updateCounters (List.replicate 5 [])

/-- Per-position pools: the top pool-size entries of each counter, as the
(number, count) pairs that Counter.most_common returns. -/
def positionPools (draws : List Draw) (poolSize : Nat) : List (Counter Nat) :=
  (buildPositionCounters draws).map (fun c => mostCommon c poolSize)

/-- The stream of values that reach position counter i: for each draw in
order, the rank-i entry of its ascending-sorted main list, when present. -/
def posVals (draws : List Draw) (i : Nat) : List Nat :=
  draws.filterMap (fun d => (sortAsc d.main).get? i)

/-- Follows the spec's words (data model and section 4.2), not the code:
pool entries ordered by occurrence count descending with ties between equal
counts broken by ascending numeric value of the number.  Stated for
comparison with the order mostCommon actually produces. -/
def specPoolOrdered (pool : Counter Nat) : Prop :=
  pool.Pairwise (fun p q => q.2 < p.2 ∨ (p.2 = q.2 ∧ p.1 < q.1))

instance (pool : Counter Nat) : Decidable (specPoolOrdered pool) := by
  unfold specPoolOrdered
  infer_instance

/-!
Coverage and improvement, embedded from audit_pools.analyze_lottery:

    random_per_pos = 100 / main_range
    top_n = counter.most_common(pool_size)
    coverage = sum(c for _, c in top_n) / total_draws * 100
    improvement = coverage / random_per_pos
-/

/-- Coverage of the top-n pool of a counter, as a percentage of the draws
in the analysed window. -/
def coverage (c : Counter Nat) (n : Nat) (totalDraws : Nat) : Rat :=
  (((mostCommon c n).map Prod.snd).sum : Rat) / (totalDraws : Rat) * 100

/-- The per-position random baseline that audit_pools actually uses:
100 / main_range, independent of the pool size. -/
def randomPerPos (m : Nat) : Rat := 100 / (m : Rat)

/-- The improvement figure audit_pools reports for a pool:
coverage / (100 / main_range). -/
def improvementOf (c : Counter Nat) (n totalDraws m : Nat) : Rat :=
  coverage c n totalDraws / randomPerPos m

/-- Follows the spec's words (section 4.2), not the code: improvementRatio
(coverage, poolSize, rangeMax) = coverage / (poolSize / rangeMax × 100).
Stated for comparison with improvementOf, the figure the code computes. -/
def improvementRatioSpec (cov : Rat) (poolSize rangeMax : Nat) : Rat :=
  cov / ((poolSize : Rat) / (rangeMax : Rat) * 100)

/-!
Walk-forward validators, embedded from validate_methods.py.  Each loop that
accumulates integer totals is written as a sum over the mapped list; the
iteration order and the set of processed items are unchanged.
-/

/-- split_idx = int(len(draws) * train_ratio): Python int() truncation,
which on the non-negative values used here is the floor. -/
def splitIdxOf (draws : List Draw) (r : Rat) : Nat :=
  (⌊(draws.length : Rat) * r⌋).toNat

/-- train_draws = draws[split_idx:] (older), test_draws = draws[:split_idx]
(newer); the sequences are newest-first. -/
def walkForwardSplit (draws : List Draw) (r : Rat) : List Draw × List Draw :=
  (draws.drop (splitIdxOf draws r), draws.take (splitIdxOf draws r))

/-- x / y if y > 0 else 0, the guarded divisions of validate_methods.py. -/
def ratioOrZero (h t : Nat) : Rat := if 0 < t then (h : Rat) / (t : Rat) else 0

structure PosFreqResult where
  trainSize : Nat
  testSize : Nat
  hits : Nat
  total : Nat
  accuracy : Rat

/-- validate_methods.validate_position_frequency. -/
def validatePositionFrequency (draws : List Draw) (r : Rat) (poolSize : Nat) :
    Option PosFreqResult :=
  if draws.length < 100 then none else
  let train := (walkForwardSplit draws r).1
  let test := (walkForwardSplit draws r).2
  let pools := (buildPositionCounters train).map
    (fun c => (mostCommon c poolSize).map Prod.fst)
  let entries := fun d : Draw =>
    ((sortAsc d.main).enum).filter (fun p => decide (p.1 < 5))
  let total := (test.map (fun d => (entries d).length)).sum
  let hits := (test.map (fun d =>
    ((entries d).filter (fun p => p.2 ∈ pools.getD p.1 [])).length)).sum
  some { trainSize := train.length, testSize := test.length,
         hits := hits, total := total, accuracy := ratioOrZero hits total }

structure HotResult where
  testSize : Nat
  window : Nat
  poolSize : Nat
  hits : Nat
  total : Nat
  accuracy : Rat

/-- history = draws[i+1 : i+1+window]: the window draws strictly after
index i in the newest-first list, i.e. strictly older than draw i. -/
def hotHistory (draws : List Draw) (window i : Nat) : List Draw :=
  (draws.drop (i + 1)).take window

/-- The hot pool built for test index i: the pool-size most frequent main
numbers over hotHistory. -/
def hotPoolAt (draws : List Draw) (window poolSize i : Nat) : List Nat :=
  (mostCommon
    (tallyList [] ((hotHistory draws window i).foldr (fun d acc => d.main ++ acc) []))
    poolSize).map Prod.fst

/-- validate_methods.validate_hot_numbers.  The loop breaks at the first
test index i with i + window >= len(draws); since that guard is monotone in
i, the processed iterations are a takeWhile over the enumerated test list. -/
def validateHotNumbers (draws : List Draw) (r : Rat) (window poolSize : Nat) :
    Option HotResult :=
  if draws.length < 100 then none else
  let test := draws.take (splitIdxOf draws r)
  let evald := (test.enum).takeWhile (fun p => decide (p.1 + window < draws.length))
  let total := (evald.map (fun p => p.2.main.length)).sum
  let hits := (evald.map (fun p =>
    (p.2.main.filter (fun v => v ∈ hotPoolAt draws window poolSize p.1)).length)).sum
  some { testSize := test.length, window := window, poolSize := poolSize,
         hits := hits, total := total, accuracy := ratioOrZero hits total }

structure RepeatResult where
  drawsChecked : Nat
  totalNumbers : Nat
  repeats : Nat
  repeatRate : Rat

/-- validate_methods.validate_repeat_pattern: Python set(...) semantics make
each draw contribute its distinct main numbers. -/
def validateRepeatPattern (draws : List Draw) : Option RepeatResult :=
  if draws.length < 100 then none else
  let pairs := draws.zip draws.tail
  let repeats := (pairs.map (fun p =>
    (p.1.main.dedup.filter (fun v => v ∈ p.2.main)).length)).sum
  let total := (pairs.map (fun p => p.1.main.dedup.length)).sum
  some { drawsChecked := draws.length - 1, totalNumbers := total,
         repeats := repeats, repeatRate := ratioOrZero repeats total }

structure ProvenResult where
  trainSize : Nat
  testSize : Nat
  provenCount : Nat
  drawsWithProven : Nat
  drawRate : Rat
  totalHits : Nat
  totalPossible : Nat
  comboHitRate : Rat

/-- validate_methods.validate_proven_combos.  combinations(main, 3) is
modelled by sublistsLen 3; the proven set is the counter keys with count
at least 2 (its enumeration order does not affect membership or counts). -/
def validateProvenCombos (draws : List Draw) (r : Rat) : Option ProvenResult :=
  if draws.length < 100 then none else
  let train := (walkForwardSplit draws r).1
  let test := (walkForwardSplit draws r).2
  let comboCounts := train.foldl
    (fun c d => tallyList c (List.sublistsLen 3 (sortAsc d.main))) []
  let proven := (comboCounts.filter (fun p => decide (2 ≤ p.2))).map Prod.fst
  let hitsPer := test.map (fun d =>
    ((List.sublistsLen 3 (sortAsc d.main)).filter (fun c => c ∈ proven)).length)
  let totalPossible := (test.map (fun d =>
    (List.sublistsLen 3 (sortAsc d.main)).length)).sum
  let totalHits := hitsPer.sum
  let drawsWith := (hitsPer.filter (fun h => decide (0 < h))).length
  some { trainSize := train.length, testSize := test.length,
         provenCount := proven.length, drawsWithProven := drawsWith,
         drawRate := ratioOrZero drawsWith test.length,
         totalHits := totalHits, totalPossible := totalPossible,
         comboHitRate := ratioOrZero totalHits totalPossible }

/-!
Constraint validation, embedded from validate_methods.validate_constraints.
-/

def ticketSum (main : List Nat) : Nat := main.sum

/-- decades = len(set(n // 10 for n in main)). -/
def decadeCount (main : List Nat) : Nat :=
  ((main.map (fun n => n / 10)).dedup).length

/-- consecutive = sum(1 for i in range(4) if main[i+1] - main[i] == 1);
on naturals the Python integer test main[i+1] - main[i] == 1 is
main[i+1] == main[i] + 1.  Reached only on length-5 lists, where the
getD default is never used. -/
def consecCount (main : List Nat) : Nat :=
  ((List.range 4).filter
    (fun i => main.getD (i + 1) 0 == main.getD i 0 + 1)).length

/-- odds = sum(1 for n in main if n % 2 == 1).  Computed by the source but
never used in its accept condition. -/
def oddCount (main : List Nat) : Nat :=
  (main.filter (fun n => n % 2 == 1)).length

/-- The accept condition the code actually applies:
sum_ok and decades_ok and consec_ok. -/
def ticketPasses (main : List Nat) : Bool :=
  (decide (65 ≤ ticketSum main) && decide (ticketSum main ≤ 175))
  && decide (3 ≤ decadeCount main)
  && decide (consecCount main ≤ 1)

/-- highCount = |{n in main : n ≥ threshold}|.  The high/low rule appears
only in the spec; the code never computes it. -/
def highCount (main : List Nat) (thr : Nat) : Nat :=
  (main.filter (fun n => thr ≤ n)).length

/-- Follows the spec's words (sections 4.4 and 8), not the code: a ticket
passes only if all five rules hold, with the spec example's constants
(sum range [65,175], at least 3 decades, at most 1 consecutive pair,
odd count in [2,3], high count at threshold 25 in [2,3]). -/
def ticketPassesSpecAllFive (main : List Nat) : Bool :=
  (decide (65 ≤ ticketSum main) && decide (ticketSum main ≤ 175))
  && decide (3 ≤ decadeCount main)
  && decide (consecCount main ≤ 1)
  && (decide (2 ≤ oddCount main) && decide (oddCount main ≤ 3))
  && (decide (2 ≤ highCount main 25) && decide (highCount main 25 ≤ 3))

structure ConstResult where
  total : Nat
  passed : Nat
  passRate : Rat

/-- validate_methods.validate_constraints: draws whose sorted main list is
not 5 long are skipped (continue) but remain in the total. -/
def validateConstraints (draws : List Draw) : Option ConstResult :=
  if draws.length < 100 then none else
  let total := draws.length
  let passed := draws.countP (fun d =>
    ((sortAsc d.main).length == 5) && ticketPasses (sortAsc d.main))
  some { total := total, passed := passed,
         passRate := ratioOrZero passed total }


section CounterLemmas

variable {a : Type} [DecidableEq a]

theorem incr_keys (c : Counter a) (v : a) :
    (incr c v).map Prod.fst =
      if v ∈ c.map Prod.fst then c.map Prod.fst else c.map Prod.fst ++ [v] := by
  induction c with
  | nil => simp [incr]
  | cons p rest ih =>
      obtain ⟨k, n⟩ := p
      by_cases hk : k = v
      · subst hk
        simp [incr]
      · have hvk : v ≠ k := fun h => hk h.symm
        simp only [incr, if_neg hk, List.map_cons]
        rw [ih]
        by_cases hv : v ∈ rest.map Prod.fst
        · rw [if_pos hv, if_pos (by simp [hv])]
        · rw [if_neg hv, if_neg (by simp [hvk, hv])]
          simp

theorem incr_sum (c : Counter a) (v : a) :
    ((incr c v).map Prod.snd).sum = (c.map Prod.snd).sum + 1 := by
  induction c with
  | nil => simp [incr]
  | cons p rest ih =>
      obtain ⟨k, n⟩ := p
      by_cases hk : k = v
      · subst hk; simp [incr]; omega
      · simp [incr, if_neg hk, ih]; omega

theorem tallyList_sum (vs : List a) :
    ∀ c : Counter a, ((tallyList c vs).map Prod.snd).sum
      = (c.map Prod.snd).sum + vs.length := by
  induction vs with
  | nil => intro c; simp [tallyList]
  | cons v rest ih =>
      intro c
      show ((tallyList (incr c v) rest).map Prod.snd).sum = _
      rw [ih (incr c v), incr_sum]
      simp
      omega

theorem incr_keys_nodup {c : Counter a} (h : (c.map Prod.fst).Nodup) (v : a) :
    ((incr c v).map Prod.fst).Nodup := by
  rw [incr_keys]
  by_cases hv : v ∈ c.map Prod.fst
  · rw [if_pos hv]; exact h
  · rw [if_neg hv, List.nodup_append]
    refine ⟨h, List.nodup_singleton v, ?_⟩
    intro x hx hx'
    rw [List.mem_singleton] at hx'
    subst hx'
    exact hv hx

theorem tallyList_keys_nodup (vs : List a) :
    ∀ {c : Counter a}, (c.map Prod.fst).Nodup →
      ((tallyList c vs).map Prod.fst).Nodup := by
  induction vs with
  | nil => intro c h; exact h
  | cons v rest ih =>
      intro c h
      exact ih (incr_keys_nodup h v)

theorem mem_incr_keys {c : Counter a} {v x : a}
    (h : x ∈ (incr c v).map Prod.fst) : x ∈ c.map Prod.fst ∨ x = v := by
  rw [incr_keys] at h
  by_cases hv : v ∈ c.map Prod.fst
  · rw [if_pos hv] at h; exact Or.inl h
  · rw [if_neg hv] at h
    rcases List.mem_append.mp h with h' | h'
    · exact Or.inl h'
    · exact Or.inr (List.mem_singleton.mp h')

theorem mem_tallyList_keys (vs : List a) :
    ∀ {c : Counter a} {x : a}, x ∈ (tallyList c vs).map Prod.fst →
      x ∈ c.map Prod.fst ∨ x ∈ vs := by
  induction vs with
  | nil => intro c x h; exact Or.inl h
  | cons v rest ih =>
      intro c x h
      rcases ih h with h' | h'
      · rcases mem_incr_keys h' with h'' | h''
        · exact Or.inl h''
        · exact Or.inr (by simp [h''])
      · exact Or.inr (by simp [h'])

end CounterLemmas

section SortDescLemmas

variable {a : Type}

theorem insertDesc_perm (x : a × Nat) (l : Counter a) :
    List.Perm (insertDesc x l) (x :: l) := by
  induction l with
  | nil => simp [insertDesc]
  | cons y l ih =>
      by_cases h : y.2 ≤ x.2
      · simp [insertDesc, h]
      · simp only [insertDesc, if_neg h]
        exact ((ih.cons y).trans (List.Perm.swap x y l))

theorem sortDesc_perm (c : Counter a) : List.Perm (sortDesc c) c := by
  induction c with
  | nil => simp [sortDesc]
  | cons x c ih =>
      show List.Perm (insertDesc x (sortDesc c)) (x :: c)
      exact (insertDesc_perm x (sortDesc c)).trans (ih.cons x)

theorem mem_insertDesc {x y : a × Nat} {l : Counter a}
    (h : y ∈ insertDesc x l) : y = x ∨ y ∈ l := by
  have := (insertDesc_perm x l).mem_iff.mp h
  simpa using this

theorem insertDesc_sorted {l : Counter a}
    (h : l.Pairwise (fun p q => q.2 ≤ p.2)) (x : a × Nat) :
    (insertDesc x l).Pairwise (fun p q => q.2 ≤ p.2) := by
  induction l with
  | nil => simp [insertDesc]
  | cons y l ih =>
      rcases List.pairwise_cons.mp h with ⟨hy, hl⟩
      by_cases hle : y.2 ≤ x.2
      · simp only [insertDesc, if_pos hle]
        refine List.pairwise_cons.mpr ⟨?_, h⟩
        intro z hz
        rcases List.mem_cons.mp hz with hz | hz
        · exact hz ▸ hle
        · exact le_trans (hy z hz) hle
      · simp only [insertDesc, if_neg hle]
        refine List.pairwise_cons.mpr ⟨?_, ih hl⟩
        intro z hz
        rcases mem_insertDesc hz with rfl | hz
        · exact le_of_lt (lt_of_not_le hle)
        · exact hy z hz

theorem sortDesc_sorted (c : Counter a) :
    (sortDesc c).Pairwise (fun p q => q.2 ≤ p.2) := by
  induction c with
  | nil => simp [sortDesc]
  | cons x c ih => exact insertDesc_sorted ih x

theorem insertDesc_filter (x : a × Nat) (l : Counter a) (k : Nat) :
    (insertDesc x l).filter (fun p => p.2 == k) =
      if x.2 = k then x :: l.filter (fun p => p.2 == k)
      else l.filter (fun p => p.2 == k) := by
  induction l with
  | nil =>
      by_cases hx : x.2 = k <;> simp [insertDesc, List.filter_cons, hx]
  | cons y l ih =>
      by_cases hle : y.2 ≤ x.2
      · have h1 : insertDesc x (y :: l) = x :: y :: l := by
          simp [insertDesc, hle]
        rw [h1]
        by_cases hx : x.2 = k <;> by_cases hy : y.2 = k <;>
          simp [List.filter_cons, hx, hy]
      · have h1 : insertDesc x (y :: l) = y :: insertDesc x l := by
          simp [insertDesc, hle]
        rw [h1]
        by_cases hx : x.2 = k
        · have hy : ¬y.2 = k := by omega
          simp [List.filter_cons, hx, hy, ih]
        · by_cases hy : y.2 = k <;> simp [List.filter_cons, hx, hy, ih]

theorem sortDesc_filter (c : Counter a) (k : Nat) :
    (sortDesc c).filter (fun p => p.2 == k) = c.filter (fun p => p.2 == k) := by
  induction c with
  | nil => simp [sortDesc]
  | cons x c ih =>
      show (insertDesc x (sortDesc c)).filter _ = _
      rw [insertDesc_filter]
      by_cases hx : x.2 = k <;> simp [List.filter_cons, hx, ih]

theorem mostCommon_length_le (c : Counter a) (n : Nat) :
    (mostCommon c n).length ≤ n := by
  simp [mostCommon]

theorem mostCommon_pairwise (c : Counter a) (n : Nat) :
    (mostCommon c n).Pairwise (fun p q => q.2 ≤ p.2) :=
  (sortDesc_sorted c).sublist (List.take_sublist n (sortDesc c))

theorem mostCommon_eq_sortDesc {c : Counter a} {n : Nat} (h : c.length ≤ n) :
    mostCommon c n = sortDesc c := by
  have hlen : (sortDesc c).length = c.length := (sortDesc_perm c).length_eq
  exact List.take_of_length_le (by omega)

end SortDescLemmas

section SlotLemmas

theorem setStep_length (cs : List (Counter Nat)) (p : Nat × Nat) :
    (setStep cs p).length = cs.length := by
  simp [setStep]

theorem updateCounters_length (cs : List (Counter Nat)) (d : Draw) :
    (updateCounters cs d).length = cs.length := by
  unfold updateCounters
  generalize (sortAsc d.main).enum = l
  induction l generalizing cs with
  | nil => rfl
  | cons p l ih =>
      show (List.foldl _ (if p.1 < 5 then setStep cs p else cs) l).length = _
      by_cases h : p.1 < 5
      · rw [if_pos h, ih (setStep cs p), setStep_length]
      · rw [if_neg h, ih cs]

theorem foldl_enumFrom_slot (L : List Nat) :
    ∀ (k : Nat) (cs : List (Counter Nat)) (i : Nat), i < 5 → cs.length = 5 →
    ((List.enumFrom k L).foldl
        (fun cs p => if p.1 < 5 then setStep cs p else cs) cs).getD i [] =
      match (if k ≤ i then L.get? (i - k) else none) with
      | some v => incr (cs.getD i []) v
      | none => cs.getD i [] := by
  induction L with
  | nil =>
      intro k cs i hi hcs
      simp [List.enumFrom]
  | cons v vs ih =>
      intro k cs i hi hcs
      show ((List.enumFrom (k + 1) vs).foldl _
        (if k < 5 then setStep cs (k, v) else cs)).getD i [] = _
      by_cases hk5 : k < 5
      · rw [if_pos hk5]
        have hlen : (setStep cs (k, v)).length = 5 := by
          rw [setStep_length]; exact hcs
        rw [ih (k + 1) (setStep cs (k, v)) i hi hlen]
        by_cases hik : i = k
        · subst hik
          have h1 : ¬(i + 1 ≤ i) := by omega
          rw [if_neg h1, if_pos (le_refl i)]
          simp only [Nat.sub_self, List.get?_cons_zero]
          show (cs.set i (incr (cs.getD i []) v)).getD i [] = _
          rw [List.getD_eq_getElem?_getD, List.getElem?_set_self, Option.getD_some]
          omega
        · have hset : (setStep cs (k, v)).getD i [] = cs.getD i [] := by
            show (cs.set k (incr (cs.getD k []) v)).getD i [] = _
            rw [List.getD_eq_getElem?_getD, List.getElem?_set_ne (fun h => hik h.symm),
              ← List.getD_eq_getElem?_getD]
          rw [hset]
          by_cases hki : k ≤ i
          · have hki' : k + 1 ≤ i := by omega
            rw [if_pos hki', if_pos hki]
            have : i - k = (i - (k + 1)) + 1 := by omega
            rw [this, List.get?_cons_succ]
          · have hki' : ¬(k + 1 ≤ i) := by omega
            rw [if_neg hki', if_neg hki]
      · rw [if_neg hk5]
        rw [ih (k + 1) cs i hi hcs]
        have h1 : ¬(k + 1 ≤ i) := by omega
        have h2 : ¬(k ≤ i) := by omega
        rw [if_neg h1, if_neg h2]

theorem updateCounters_slot (cs : List (Counter Nat)) (d : Draw) (i : Nat)
    (hi : i < 5) (hcs : cs.length = 5) :
    (updateCounters cs d).getD i [] =
      match (sortAsc d.main).get? i with
      | some v => incr (cs.getD i []) v
      | none => cs.getD i [] := by
  unfold updateCounters
  rw [show (sortAsc d.main).enum = List.enumFrom 0 (sortAsc d.main) from rfl]
  rw [foldl_enumFrom_slot (sortAsc d.main) 0 cs i hi hcs]
  rw [if_pos (Nat.zero_le i), Nat.sub_zero]

theorem build_slot (draws : List Draw) :
    ∀ (cs : List (Counter Nat)) (i : Nat), i < 5 → cs.length = 5 →
    ((draws.foldl updateCounters cs).getD i []) =
      tallyList (cs.getD i []) (posVals draws i) := by
  induction draws with
  | nil => intro cs i hi hcs; rfl
  | cons d rest ih =>
      intro cs i hi hcs
      show ((rest.foldl updateCounters (updateCounters cs d)).getD i []) = _
      have hlen : (updateCounters cs d).length = 5 := by
        rw [updateCounters_length]; exact hcs
      rw [ih (updateCounters cs d) i hi hlen, updateCounters_slot cs d i hi hcs]
      cases hget : (sortAsc d.main).get? i with
      | some v =>
          simp only [posVals, List.filterMap_cons, hget]
          rfl
      | none =>
          simp only [posVals, List.filterMap_cons, hget]

theorem buildPositionCounters_slot (draws : List Draw) (i : Nat) (hi : i < 5) :
    (buildPositionCounters draws).getD i [] = tallyList [] (posVals draws i) := by
  unfold buildPositionCounters
  rw [build_slot draws (List.replicate 5 []) i hi (by simp)]
  congr 1
  rw [List.getD_eq_getElem?_getD, List.getElem?_replicate, if_pos hi]
  rfl

end SlotLemmas

section GuardFilterLemmas

/-- A foldl whose body is guarded by a decidable test equals the unguarded
foldl over the filtered list. -/
theorem foldl_if_filter {A B : Type} (q : A → Prop) [DecidablePred q]
    (f : B → A → B) :
    ∀ (l : List A) (init : B),
      l.foldl (fun s x => if q x then f s x else s) init
        = (l.filter (fun x => decide (q x))).foldl f init := by
  intro l
  induction l with
  | nil => intro init; rfl
  | cons x l ih =>
      intro init
      by_cases hx : q x
      · simp only [List.foldl_cons, if_pos hx, List.filter_cons,
          decide_eq_true hx]
        exact ih (f init x)
      · simp only [List.foldl_cons, if_neg hx, List.filter_cons,
          decide_eq_false hx]
        exact ih init

theorem enumFrom_filter_lt_of_le {A : Type} (l : List A) :
    ∀ (k m : Nat), m ≤ k →
      (List.enumFrom k l).filter (fun p => decide (p.1 < m)) = [] := by
  induction l with
  | nil => intro k m _; rfl
  | cons x xs ih =>
      intro k m hmk
      have hx : ¬(k < m) := by omega
      simp only [List.enumFrom, List.filter_cons, decide_eq_false hx]
      exact ih (k + 1) m (by omega)

theorem enumFrom_filter_lt {A : Type} (l : List A) :
    ∀ (k n : Nat),
      (List.enumFrom k l).filter (fun p => decide (p.1 < k + n))
        = List.enumFrom k (l.take n) := by
  induction l with
  | nil => intro k n; simp [List.enumFrom]
  | cons x xs ih =>
      intro k n
      cases n with
      | zero =>
          have hx : ¬(k < k + 0) := by omega
          simp only [List.enumFrom, List.filter_cons, decide_eq_false hx,
            List.take_zero]
          exact enumFrom_filter_lt_of_le xs (k + 1) (k + 0) (by omega)
      | succ n' =>
          have hx : k < k + (n' + 1) := by omega
          simp only [List.enumFrom, List.filter_cons, decide_eq_true hx,
            List.take_succ_cons]
          have harith : k + (n' + 1) = (k + 1) + n' := by omega
          rw [harith, ih (k + 1) n']
          rfl

/-- Enumerating a list and keeping ranks below n is the same as
enumerating its n-element prefix. -/
theorem enum_filter_lt {A : Type} (l : List A) (n : Nat) :
    l.enum.filter (fun p => decide (p.1 < n)) = (l.take n).enum := by
  have := enumFrom_filter_lt l 0 n
  simpa [List.enum] using this

end GuardFilterLemmas

section SortAscLemmas

theorem sortAsc_perm (l : List Nat) : List.Perm (sortAsc l) l :=
  List.perm_insertionSort (· ≤ ·) l

theorem sortAsc_sorted (l : List Nat) : List.Sorted (· ≤ ·) (sortAsc l) :=
  List.sorted_insertionSort (· ≤ ·) l

theorem sortAsc_length (l : List Nat) : (sortAsc l).length = l.length :=
  (sortAsc_perm l).length_eq

end SortAscLemmas

/-!
Claim theorems.
-/

/-- C2: in validate_hot_numbers, the hot pool for the test draw at index i
(evaluated only when i + window < len(draws)) is built from exactly the
window draws at indices i+1 .. i+window of the newest-first list — never
from the evaluated draw (index i) or any chronologically later draw
(index < i).  validateHotNumbers builds its pool as hotPoolAt, which reads
only hotHistory draws window i. -/
theorem hot_numbers_causal_window (draws : List Draw) (window i : Nat)
    (h : i + window < draws.length) :
    (hotHistory draws window i).length = window ∧
    (∀ j, j < window → (hotHistory draws window i)[j]? = draws[i + 1 + j]?) ∧
    (∀ d ∈ hotHistory draws window i,
      ∃ j, i + 1 ≤ j ∧ j ≤ i + window ∧ draws[j]? = some d) := by
  have hlen : (hotHistory draws window i).length = window := by
    simp only [hotHistory, List.length_take, List.length_drop]
    omega
  have hget : ∀ j, j < window →
      (hotHistory draws window i)[j]? = draws[i + 1 + j]? := by
    intro j hj
    simp only [hotHistory]
    rw [List.getElem?_take, if_pos hj, List.getElem?_drop]
  refine ⟨hlen, hget, ?_⟩
  intro d hd
  rw [List.mem_iff_getElem] at hd
  obtain ⟨j, hj, he⟩ := hd
  rw [hlen] at hj
  refine ⟨i + 1 + j, by omega, by omega, ?_⟩
  rw [← hget j hj, List.getElem?_eq_getElem (by rw [hlen]; exact hj)]
  rw [he]

/-- C2 witness: with three draws, window 1 and test index 0, the history is
exactly the single draw at index 1. -/
theorem hot_numbers_causal_window_witness :
    (0 + 1 < ([(⟨0, [1], none⟩ : Draw), ⟨1, [2], none⟩, ⟨2, [3], none⟩] : List Draw).length) ∧
    ((hotHistory [⟨0, [1], none⟩, ⟨1, [2], none⟩, ⟨2, [3], none⟩] 1 0).length = 1 ∧
     (∀ j, j < 1 → (hotHistory [⟨0, [1], none⟩, ⟨1, [2], none⟩, ⟨2, [3], none⟩] 1 0)[j]?
        = ([(⟨0, [1], none⟩ : Draw), ⟨1, [2], none⟩, ⟨2, [3], none⟩] : List Draw)[0 + 1 + j]?) ∧
     (∀ d ∈ hotHistory [⟨0, [1], none⟩, ⟨1, [2], none⟩, ⟨2, [3], none⟩] 1 0,
        ∃ j, 0 + 1 ≤ j ∧ j ≤ 0 + 1 ∧
          ([(⟨0, [1], none⟩ : Draw), ⟨1, [2], none⟩, ⟨2, [3], none⟩] : List Draw)[j]? = some d)) :=
  ⟨by decide,
   hot_numbers_causal_window [⟨0, [1], none⟩, ⟨1, [2], none⟩, ⟨2, [3], none⟩] 1 0 (by decide)⟩

/-- C3: the walk-forward split uses splitIndex = floor(length × trainRatio),
the train slice (positions ≥ splitIndex) and test slice (positions <
splitIndex) partition the sequence, and when the sequence is newest-first
every train date is chronologically at most every test date. -/
theorem walk_forward_split_props (draws : List Draw) (r : Rat) (hr : 0 ≤ r)
    (hsorted : draws.Pairwise (fun p q => q.date ≤ p.date)) :
    ((walkForwardSplit draws r).1.length + (walkForwardSplit draws r).2.length
        = draws.length) ∧
    ((splitIdxOf draws r : Int) = ⌊(draws.length : Rat) * r⌋) ∧
    (∀ p ∈ (walkForwardSplit draws r).1, ∀ q ∈ (walkForwardSplit draws r).2,
      p.date ≤ q.date) := by
  refine ⟨?_, ?_, ?_⟩
  · simp only [walkForwardSplit, List.length_drop, List.length_take]
    omega
  · exact Int.toNat_of_nonneg
      (Int.floor_nonneg.mpr (mul_nonneg (Nat.cast_nonneg _) hr))
  · rw [← List.take_append_drop (splitIdxOf draws r) draws] at hsorted
    rcases List.pairwise_append.mp hsorted with ⟨_, _, hcross⟩
    intro p hp q hq
    exact hcross q hq p hp

/-- C3 witness: two draws with descending dates and ratio 1/2. -/
theorem walk_forward_split_props_witness :
    (0 ≤ (1 / 2 : Rat)) ∧
    (([(⟨5, [1], none⟩ : Draw), ⟨3, [2], none⟩] : List Draw).Pairwise
        (fun p q => q.date ≤ p.date)) ∧
    (((walkForwardSplit [⟨5, [1], none⟩, ⟨3, [2], none⟩] (1 / 2)).1.length
        + (walkForwardSplit [⟨5, [1], none⟩, ⟨3, [2], none⟩] (1 / 2)).2.length
        = ([(⟨5, [1], none⟩ : Draw), ⟨3, [2], none⟩] : List Draw).length) ∧
     ((splitIdxOf [⟨5, [1], none⟩, ⟨3, [2], none⟩] (1 / 2) : Int)
        = ⌊(([(⟨5, [1], none⟩ : Draw), ⟨3, [2], none⟩] : List Draw).length : Rat) * (1 / 2)⌋) ∧
     (∀ p ∈ (walkForwardSplit [⟨5, [1], none⟩, ⟨3, [2], none⟩] (1 / 2)).1,
        ∀ q ∈ (walkForwardSplit [⟨5, [1], none⟩, ⟨3, [2], none⟩] (1 / 2)).2,
          p.date ≤ q.date)) :=
  ⟨by norm_num, by decide,
   walk_forward_split_props [⟨5, [1], none⟩, ⟨3, [2], none⟩] (1 / 2)
     (by norm_num) (by decide)⟩

/-- C8: every validator returns None (not applicable) on fewer than 100
draws, for all parameter choices. -/
theorem insufficient_data_returns_none (draws : List Draw) (r : Rat)
    (window poolSize : Nat) (h : draws.length < 100) :
    validatePositionFrequency draws r poolSize = none ∧
    validateHotNumbers draws r window poolSize = none ∧
    validateRepeatPattern draws = none ∧
    validateProvenCombos draws r = none ∧
    validateConstraints draws = none := by
  refine ⟨?_, ?_, ?_, ?_, ?_⟩ <;>
    simp [validatePositionFrequency, validateHotNumbers, validateRepeatPattern,
      validateProvenCombos, validateConstraints, h]

/-- C8 witness: the empty sequence (length 0 < 100) yields None from all
five validators. -/
theorem insufficient_data_returns_none_witness :
    (([] : List Draw).length < 100) ∧
    (validatePositionFrequency [] (4 / 5) 8 = none ∧
     validateHotNumbers [] (4 / 5) 20 10 = none ∧
     validateRepeatPattern [] = none ∧
     validateProvenCombos [] (4 / 5) = none ∧
     validateConstraints [] = none) :=
  ⟨by decide, insufficient_data_returns_none [] (4 / 5) 20 10 (by decide)⟩

/-- C10: processing one draw updates the position counters exactly with the
enumerated 5-element prefix of the ascending-sorted main list; when the main
field has more than 5 numbers, the prefix has exactly 5 entries (the 5
smallest values) and every ignored value is at least every tallied value. -/
theorem position_tally_uses_five_smallest (cs : List (Counter Nat)) (d : Draw)
    (h5 : 5 < d.main.length) :
    updateCounters cs d = (((sortAsc d.main).take 5).enum).foldl setStep cs ∧
    ((sortAsc d.main).take 5).length = 5 ∧
    (∀ v ∈ (sortAsc d.main).drop 5, ∀ w ∈ (sortAsc d.main).take 5, w ≤ v) := by
  refine ⟨?_, ?_, ?_⟩
  · unfold updateCounters
    rw [foldl_if_filter (fun p : Nat × Nat => p.1 < 5) setStep]
    rw [enum_filter_lt]
  · rw [List.length_take, sortAsc_length]
    omega
  · have hs := sortAsc_sorted d.main
    rw [List.Sorted, ← List.take_append_drop 5 (sortAsc d.main)] at hs
    rcases List.pairwise_append.mp hs with ⟨_, _, hcross⟩
    intro v hv w hw
    exact hcross w hw v hv

/-- C10 witness: a draw with 6 main numbers tallies only its 5 smallest. -/
theorem position_tally_uses_five_smallest_witness :
    (5 < (Draw.mk 0 [6, 5, 4, 3, 2, 1] none).main.length) ∧
    (updateCounters (List.replicate 5 []) (Draw.mk 0 [6, 5, 4, 3, 2, 1] none)
        = (((sortAsc (Draw.mk 0 [6, 5, 4, 3, 2, 1] none).main).take 5).enum).foldl
            setStep (List.replicate 5 []) ∧
     ((sortAsc (Draw.mk 0 [6, 5, 4, 3, 2, 1] none).main).take 5).length = 5 ∧
     (∀ v ∈ (sortAsc (Draw.mk 0 [6, 5, 4, 3, 2, 1] none).main).drop 5,
        ∀ w ∈ (sortAsc (Draw.mk 0 [6, 5, 4, 3, 2, 1] none).main).take 5, w ≤ v)) :=
  ⟨by decide,
   position_tally_uses_five_smallest (List.replicate 5 [])
     (Draw.mk 0 [6, 5, 4, 3, 2, 1] none) (by decide)⟩

/-- C1 counterexample: the ticket [1,13,25,37,47] (already ascending)
satisfies the sum, decades and consecutive rules, so the code counts it as
passing, yet its odd count is 5, so the spec's five-rule predicate rejects
it.  The claimed equivalence between the code's accept condition and the
five configured rules fails at this input. -/
theorem constraints_five_rules_cex :
    ticketPasses (sortAsc [1, 13, 25, 37, 47]) = true ∧
    ticketPassesSpecAllFive (sortAsc [1, 13, 25, 37, 47]) = false :=
  ⟨by decide, by decide⟩

/-- C1 (amended): a candidate ticket is counted as passing if and only if
the three enforced rules hold (sum in [65,175], at least 3 decades, at most
1 consecutive pair); the odd-count rule is computed but not enforced and
the high-count rule is never evaluated, so five-rule compliance implies
acceptance but not conversely. -/
theorem constraints_pass_iff_three_rules (t : List Nat) :
    (ticketPasses t = true ↔
      ((65 ≤ ticketSum t ∧ ticketSum t ≤ 175) ∧
        3 ≤ decadeCount t ∧ consecCount t ≤ 1)) ∧
    (ticketPassesSpecAllFive t = true → ticketPasses t = true) := by
  constructor
  · simp [ticketPasses, Bool.and_eq_true, decide_eq_true_iff, and_assoc]
  · intro h
    simp only [ticketPassesSpecAllFive, Bool.and_eq_true, decide_eq_true_iff] at h
    simp only [ticketPasses, Bool.and_eq_true, decide_eq_true_iff]
    tauto

/-- C1 witness: the amended equivalence applied to the spec's example
ticket [3,14,22,31,44]. -/
theorem constraints_pass_iff_three_rules_witness :
    (ticketPasses (sortAsc [3, 14, 22, 31, 44]) = true ↔
      ((65 ≤ ticketSum (sortAsc [3, 14, 22, 31, 44]) ∧
          ticketSum (sortAsc [3, 14, 22, 31, 44]) ≤ 175) ∧
        3 ≤ decadeCount (sortAsc [3, 14, 22, 31, 44]) ∧
        consecCount (sortAsc [3, 14, 22, 31, 44]) ≤ 1)) ∧
    (ticketPassesSpecAllFive (sortAsc [3, 14, 22, 31, 44]) = true →
      ticketPasses (sortAsc [3, 14, 22, 31, 44]) = true) :=
  constraints_pass_iff_three_rules (sortAsc [3, 14, 22, 31, 44])

/-- C9: with at least 100 draws, the constraint validator reports total =
all draws (malformed ones included) and passRate = (number of 5-number
draws that satisfy the enforced rules) / (total number of draws); a draw
whose sorted main list is not 5 long is skipped by the rule check and can
never be counted as passing. -/
theorem constraints_pass_rate_formula (draws : List Draw)
    (h : 100 ≤ draws.length) :
    (validateConstraints draws).map ConstResult.total = some draws.length ∧
    (validateConstraints draws).map ConstResult.passRate =
      some ((((draws.filter (fun d => (sortAsc d.main).length == 5)).countP
          (fun d => ticketPasses (sortAsc d.main)) : Nat) : Rat)
        / (draws.length : Rat)) := by
  have hguard : ¬(draws.length < 100) := by omega
  have hcount : draws.countP (fun d =>
        ((sortAsc d.main).length == 5) && ticketPasses (sortAsc d.main))
      = (draws.filter (fun d => (sortAsc d.main).length == 5)).countP
          (fun d => ticketPasses (sortAsc d.main)) := by
    rw [List.countP_filter]
    exact List.countP_congr (fun d _ => by simp [Bool.and_comm])
  constructor
  · simp [validateConstraints, hguard]
  · simp only [validateConstraints, if_neg hguard, Option.map_some']
    rw [ratioOrZero, if_pos (by omega : 0 < draws.length), hcount]

/-- C9 witness: 99 well-formed passing draws plus one malformed 3-number
draw; the malformed draw stays in the denominator. -/
theorem constraints_pass_rate_formula_witness :
    (100 ≤ (List.replicate 99 (Draw.mk 0 [3, 14, 22, 31, 44] none)
        ++ [Draw.mk 0 [1, 2, 3] none]).length) ∧
    ((validateConstraints (List.replicate 99 (Draw.mk 0 [3, 14, 22, 31, 44] none)
        ++ [Draw.mk 0 [1, 2, 3] none])).map ConstResult.total =
      some (List.replicate 99 (Draw.mk 0 [3, 14, 22, 31, 44] none)
        ++ [Draw.mk 0 [1, 2, 3] none]).length ∧
     (validateConstraints (List.replicate 99 (Draw.mk 0 [3, 14, 22, 31, 44] none)
        ++ [Draw.mk 0 [1, 2, 3] none])).map ConstResult.passRate =
      some (((((List.replicate 99 (Draw.mk 0 [3, 14, 22, 31, 44] none)
            ++ [Draw.mk 0 [1, 2, 3] none]).filter
              (fun d => (sortAsc d.main).length == 5)).countP
            (fun d => ticketPasses (sortAsc d.main)) : Nat) : Rat)
        / ((List.replicate 99 (Draw.mk 0 [3, 14, 22, 31, 44] none)
            ++ [Draw.mk 0 [1, 2, 3] none]).length : Rat))) :=
  ⟨by decide,
   constraints_pass_rate_formula
     (List.replicate 99 (Draw.mk 0 [3, 14, 22, 31, 44] none)
        ++ [Draw.mk 0 [1, 2, 3] none]) (by decide)⟩

/-- C7: with at least 100 draws, each with 5 distinct main numbers, the
proven-combos validator reports totalPossible = testSize × C(5,3) =
testSize × 10: every test draw contributes exactly choose(5,3) = 10
enumerated 3-subsets. -/
theorem proven_combos_total_possible (draws : List Draw) (r : Rat)
    (h100 : 100 ≤ draws.length)
    (hmain : ∀ d ∈ draws, d.main.length = 5 ∧ d.main.Nodup) :
    (validateProvenCombos draws r).map ProvenResult.totalPossible =
      (validateProvenCombos draws r).map (fun res => 10 * res.testSize) := by
  have hguard : ¬(draws.length < 100) := by omega
  have hlen : ∀ d ∈ draws.take (splitIdxOf draws r),
      (List.sublistsLen 3 (sortAsc d.main)).length = 10 := by
    intro d hd
    have hdm : d ∈ draws := List.take_subset _ _ hd
    rw [List.length_sublistsLen, sortAsc_length, (hmain d hdm).1]
    decide
  simp only [validateProvenCombos, walkForwardSplit, if_neg hguard,
    Option.map_some']
  congr 1
  rw [List.map_congr_left hlen, List.map_const', List.sum_replicate,
    smul_eq_mul]
  ring

/-- C7 witness: 100 identical 5-number draws with ratio 4/5 (so 80 test
draws and 800 possible combos). -/
theorem proven_combos_total_possible_witness :
    (100 ≤ (List.replicate 100 (Draw.mk 0 [1, 2, 3, 4, 5] none)).length) ∧
    (∀ d ∈ List.replicate 100 (Draw.mk 0 [1, 2, 3, 4, 5] none),
        d.main.length = 5 ∧ d.main.Nodup) ∧
    ((validateProvenCombos (List.replicate 100 (Draw.mk 0 [1, 2, 3, 4, 5] none))
        (4 / 5)).map ProvenResult.totalPossible =
      (validateProvenCombos (List.replicate 100 (Draw.mk 0 [1, 2, 3, 4, 5] none))
        (4 / 5)).map (fun res => 10 * res.testSize)) :=
  ⟨by decide, by decide,
   proven_combos_total_possible
     (List.replicate 100 (Draw.mk 0 [1, 2, 3, 4, 5] none)) (4 / 5)
     (by decide) (by decide)⟩

/-- Sums of longer prefixes of a list of naturals are at least sums of
shorter ones. -/
theorem sum_take_mono (l : List Nat) {m n : Nat} (h : m ≤ n) :
    (l.take m).sum ≤ (l.take n).sum := by
  have hsplit : l.take n = l.take m ++ (l.drop m).take (n - m) := by
    conv_lhs => rw [show n = m + (n - m) by omega]
    rw [List.take_add]
  rw [hsplit, List.sum_append]
  omega

/-- C5 counterexample: two draws whose position-0 values 9 and 2 each occur
once.  most_common keeps equal-count entries in counter insertion order, so
the returned pool is [(9,1),(2,1)], which is not ordered with ties broken
by ascending numeric value as the claim states. -/
theorem position_pool_tie_order_cex :
    (positionPools [Draw.mk 0 [9, 10, 11, 12, 13] none,
        Draw.mk 1 [2, 10, 11, 12, 13] none] 8).getD 0 [] = [(9, 1), (2, 1)] ∧
    ¬specPoolOrdered ((positionPools [Draw.mk 0 [9, 10, 11, 12, 13] none,
        Draw.mk 1 [2, 10, 11, 12, 13] none] 8).getD 0 []) :=
  ⟨by decide, by decide⟩

/-- C5 (amended): every per-position pool is mostCommon of its counter:
length at most the requested pool size, counts nonincreasing, and entries
with equal counts keep the counter's key-insertion order (the order in
which numbers first occur while tallying), not ascending numeric order —
formally, filtering the sorted counter at any fixed count leaves the
counter's own order unchanged. -/
theorem position_pool_order_props (draws : List Draw) (n : Nat)
    (pool : Counter Nat) (hp : pool ∈ positionPools draws n) :
    pool.length ≤ n ∧
    pool.Pairwise (fun p q => q.2 ≤ p.2) ∧
    ∃ c ∈ buildPositionCounters draws, pool = mostCommon c n ∧
      ∀ k, (sortDesc c).filter (fun p => p.2 == k) =
        c.filter (fun p => p.2 == k) := by
  obtain ⟨c, hc, hrw⟩ := List.mem_map.mp hp
  subst hrw
  exact ⟨mostCommon_length_le c n, mostCommon_pairwise c n,
    c, hc, rfl, fun k => sortDesc_filter c k⟩

/-- C5 witness: the amended pool properties at the two-draw example. -/
theorem position_pool_order_props_witness :
    (((positionPools [Draw.mk 0 [9, 10, 11, 12, 13] none,
        Draw.mk 1 [2, 10, 11, 12, 13] none] 8).getD 0 [])
        ∈ positionPools [Draw.mk 0 [9, 10, 11, 12, 13] none,
            Draw.mk 1 [2, 10, 11, 12, 13] none] 8) ∧
    (((positionPools [Draw.mk 0 [9, 10, 11, 12, 13] none,
        Draw.mk 1 [2, 10, 11, 12, 13] none] 8).getD 0 []).length ≤ 8 ∧
     ((positionPools [Draw.mk 0 [9, 10, 11, 12, 13] none,
        Draw.mk 1 [2, 10, 11, 12, 13] none] 8).getD 0 []).Pairwise
          (fun p q => q.2 ≤ p.2) ∧
     ∃ c ∈ buildPositionCounters [Draw.mk 0 [9, 10, 11, 12, 13] none,
            Draw.mk 1 [2, 10, 11, 12, 13] none],
        (positionPools [Draw.mk 0 [9, 10, 11, 12, 13] none,
          Draw.mk 1 [2, 10, 11, 12, 13] none] 8).getD 0 [] = mostCommon c 8 ∧
        ∀ k, (sortDesc c).filter (fun p => p.2 == k) =
          c.filter (fun p => p.2 == k)) :=
  ⟨by decide,
   position_pool_order_props [Draw.mk 0 [9, 10, 11, 12, 13] none,
     Draw.mk 1 [2, 10, 11, 12, 13] none] 8 _ (by decide)⟩

/-- C6: for a fixed window, a fixed position counter and pool sizes
P1 < P2, the coverage of the top-P2 pool is at least the coverage of the
top-P1 pool: the top-P1 entries are a prefix of the top-P2 entries and
counts are nonnegative. -/
theorem coverage_monotone_in_pool_size (draws : List Draw)
    (window p1 p2 : Nat) (hp : p1 < p2) (c : Counter Nat)
    (_hc : c ∈ buildPositionCounters (draws.take window)) :
    coverage c p1 (draws.take window).length ≤
      coverage c p2 (draws.take window).length := by
  unfold coverage
  have hsum : (((mostCommon c p1).map Prod.snd).sum : Rat)
      ≤ (((mostCommon c p2).map Prod.snd).sum : Rat) := by
    have h1 : ((mostCommon c p1).map Prod.snd).sum
        ≤ ((mostCommon c p2).map Prod.snd).sum := by
      simp only [mostCommon, List.map_take]
      exact sum_take_mono _ (le_of_lt hp)
    exact_mod_cast h1
  have hden : (0 : Rat) ≤ (((draws.take window).length : Nat) : Rat)⁻¹ * 100 := by
    positivity
  rw [div_eq_mul_inv, div_eq_mul_inv, mul_assoc, mul_assoc]
  exact mul_le_mul_of_nonneg_right hsum hden

/-- C6 witness: pool sizes 1 < 2 on the position-0 counter of a two-draw
window. -/
theorem coverage_monotone_in_pool_size_witness :
    ((1 : Nat) < 2) ∧
    ([(9, 1), (2, 1)] ∈ buildPositionCounters
        (([(Draw.mk 0 [9, 10, 11, 12, 13] none),
           Draw.mk 1 [2, 10, 11, 12, 13] none] : List Draw).take 2)) ∧
    (coverage [(9, 1), (2, 1)] 1
        (([(Draw.mk 0 [9, 10, 11, 12, 13] none),
           Draw.mk 1 [2, 10, 11, 12, 13] none] : List Draw).take 2).length ≤
     coverage [(9, 1), (2, 1)] 2
        (([(Draw.mk 0 [9, 10, 11, 12, 13] none),
           Draw.mk 1 [2, 10, 11, 12, 13] none] : List Draw).take 2).length) :=
  ⟨by decide, by decide,
   coverage_monotone_in_pool_size
     [Draw.mk 0 [9, 10, 11, 12, 13] none, Draw.mk 1 [2, 10, 11, 12, 13] none]
     2 1 2 (by decide) [(9, 1), (2, 1)] (by decide)⟩

/-- C4 counterexample: one draw [1,2,3,4,5] with rangeMax 5 and poolSize =
rangeMax = 5.  The code's improvement figure is 5 while the spec formula
coverage / (poolSize / rangeMax × 100) gives 1, so the reported ratio
neither matches the spec formula nor equals 1.0 at poolSize = rangeMax. -/
theorem improvement_formula_cex :
    improvementOf
        ((buildPositionCounters [Draw.mk 0 [1, 2, 3, 4, 5] none]).getD 0 [])
        5 1 5 = 5 ∧
    improvementRatioSpec
        (coverage
          ((buildPositionCounters [Draw.mk 0 [1, 2, 3, 4, 5] none]).getD 0 [])
          5 1) 5 5 = 1 ∧
    (5 : Rat) ≠ 1 := by
  have h : ((mostCommon
      ((buildPositionCounters [Draw.mk 0 [1, 2, 3, 4, 5] none]).getD 0 []) 5).map
        Prod.snd).sum = 1 := by decide
  refine ⟨?_, ?_, by norm_num⟩
  · unfold improvementOf coverage randomPerPos
    rw [h]
    norm_num
  · unfold improvementRatioSpec coverage
    rw [h]
    norm_num

/-- C4 (amended): the improvement ratio audit_pools computes is coverage /
(100 / rangeMax), a pool-size-independent single-number baseline.  For a
nonempty sequence whose draws each have exactly 5 main numbers in
[1, rangeMax], taking poolSize = rangeMax makes the pool cover the whole
number space, coverage is 100%, and the reported ratio equals rangeMax
(not 1.0). -/
theorem improvement_full_pool_eq_rangeMax (draws : List Draw) (m i : Nat)
    (hne : 0 < draws.length) (hm : 1 ≤ m) (hi : i < 5)
    (hlen5 : ∀ d ∈ draws, d.main.length = 5)
    (hrange : ∀ d ∈ draws, ∀ v ∈ d.main, 1 ≤ v ∧ v ≤ m) :
    improvementOf ((buildPositionCounters draws).getD i []) m draws.length m
      = (m : Rat) := by
  have hC : (buildPositionCounters draws).getD i []
      = tallyList [] (posVals draws i) := buildPositionCounters_slot draws i hi
  have hpv : ∀ ds : List Draw, (∀ d ∈ ds, d.main.length = 5) →
      (posVals ds i).length = ds.length := by
    intro ds
    induction ds with
    | nil => intro _; rfl
    | cons d rest ih =>
        intro hds
        have h5 : d.main.length = 5 := hds d (by simp)
        have hi5 : i < (sortAsc d.main).length := by
          rw [sortAsc_length, h5]; omega
        have hrest := ih (fun d hd => hds d (by simp [hd]))
        simp only [posVals, List.filterMap_cons, List.get?_eq_get hi5,
          List.length_cons] at hrest ⊢
        omega
  have hlenpv : (posVals draws i).length = draws.length := hpv draws hlen5
  have hnd : (((buildPositionCounters draws).getD i []).map Prod.fst).Nodup := by
    rw [hC]
    exact tallyList_keys_nodup _ (by simp)
  have hkeys : ∀ x ∈ ((buildPositionCounters draws).getD i []).map Prod.fst,
      x ∈ Finset.Icc 1 m := by
    rw [hC]
    intro x hx
    rcases mem_tallyList_keys _ hx with h | h
    · simp at h
    · obtain ⟨d, hd, hg⟩ := List.mem_filterMap.mp h
      have hx1 : x ∈ sortAsc d.main := List.get?_mem hg
      have hx2 : x ∈ d.main := (sortAsc_perm d.main).mem_iff.mp hx1
      exact Finset.mem_Icc.mpr (hrange d hd x hx2)
  have hclen : ((buildPositionCounters draws).getD i []).length ≤ m := by
    have h1 : ((buildPositionCounters draws).getD i []).length
        = (((buildPositionCounters draws).getD i []).map Prod.fst).length := by
      rw [List.length_map]
    rw [h1, ← List.toFinset_card_of_nodup hnd]
    calc (((buildPositionCounters draws).getD i []).map Prod.fst).toFinset.card
        ≤ (Finset.Icc 1 m).card :=
          Finset.card_le_card (fun x hx => hkeys x (List.mem_toFinset.mp hx))
      _ = m := by rw [Nat.card_Icc]; omega
  have hsum : ((mostCommon ((buildPositionCounters draws).getD i []) m).map
      Prod.snd).sum = draws.length := by
    rw [mostCommon_eq_sortDesc hclen,
      ((sortDesc_perm ((buildPositionCounters draws).getD i [])).map
        Prod.snd).sum_eq,
      hC, tallyList_sum]
    simpa using hlenpv
  unfold improvementOf coverage randomPerPos
  rw [hsum]
  have hm0 : ((m : Nat) : Rat) ≠ 0 := by
    have hpos : (0 : Rat) < (m : Nat) := by exact_mod_cast (by omega : 0 < m)
    exact ne_of_gt hpos
  have hd0 : ((draws.length : Nat) : Rat) ≠ 0 := by
    have hpos : (0 : Rat) < (draws.length : Nat) := by exact_mod_cast hne
    exact ne_of_gt hpos
  field_simp

/-- C4 witness: the amended statement at a single draw [1,2,3,4,5] with
rangeMax 5: the reported improvement is 5. -/
theorem improvement_full_pool_eq_rangeMax_witness :
    (0 < ([(Draw.mk 0 [1, 2, 3, 4, 5] none)] : List Draw).length) ∧
    (1 ≤ (5 : Nat)) ∧ ((0 : Nat) < 5) ∧
    (∀ d ∈ ([(Draw.mk 0 [1, 2, 3, 4, 5] none)] : List Draw), d.main.length = 5) ∧
    (∀ d ∈ ([(Draw.mk 0 [1, 2, 3, 4, 5] none)] : List Draw),
        ∀ v ∈ d.main, 1 ≤ v ∧ v ≤ 5) ∧
    (improvementOf
        ((buildPositionCounters [Draw.mk 0 [1, 2, 3, 4, 5] none]).getD 0 [])
        5 ([(Draw.mk 0 [1, 2, 3, 4, 5] none)] : List Draw).length 5
      = ((5 : Nat) : Rat)) :=
  ⟨by decide, by decide, by decide, by decide, by decide,
   improvement_full_pool_eq_rangeMax [Draw.mk 0 [1, 2, 3, 4, 5] none] 5 0
     (by decide) (by decide) (by decide) (by decide) (by decide)⟩
